import Mathlib

/-
Verification of the tftp-rs TFTP client/server implementation.

Shallow embedding conventions:
  * Rust strings and byte buffers are modelled as `List Nat` (each element a
    byte value < 256 where the source guarantees it).
  * 16-bit arithmetic (`u16`) is modelled on `Nat` with explicit bounds and
    the source's own overflow handling (`checked_add`) made explicit.
  * Fallible functions return `Except Error`.
  * Filesystem and socket effects are modelled by explicit oracles / state.
-/

namespace Tftp

/-- Byte constants from src/file.rs. -/
def NULL : Nat := 0

/-- Carriage return byte. -/
def CR : Nat := 13

/-- Line feed byte. -/
def LF : Nat := 10

/-- `const ROLLOVER: u16 = 0` from src/lib.rs. -/
def ROLLOVER : Nat := 0

/-- `const HEADER_LEN: usize = 4` from src/lib.rs. -/
def HEADER_LEN : Nat := 4

/-- Opcode enumeration from src/lib.rs (`OpCode`). -/
inductive OpCode
  | Rrq
  | Wrq
  | Data
  | Ack
  | Error
  | Oack
deriving DecidableEq, Repr

/-- Numeric discriminants of `OpCode` (Rrq = 1, ..., Oack = 6). -/
def OpCode.toNat : OpCode → Nat
  | .Rrq => 1
  | .Wrq => 2
  | .Data => 3
  | .Ack => 4
  | .Error => 5
  | .Oack => 6

/-- Error-code enumeration from src/lib.rs (`ErrorCode`). -/
inductive ErrorCode
  | NotDefined
  | FileNotFound
  | AccessViolation
  | DiskFull
  | IllegalTftpOp
  | UnknownTId
  | FileAlreadyExists
  | NoSuchUser
  | OptionNotSupport
deriving DecidableEq, Repr

/-- Numeric discriminants of `ErrorCode` (NotDefined = 0, ..., OptionNotSupport = 8). -/
def ErrorCode.toNat : ErrorCode → Nat
  | .NotDefined => 0
  | .FileNotFound => 1
  | .AccessViolation => 2
  | .DiskFull => 3
  | .IllegalTftpOp => 4
  | .UnknownTId => 5
  | .FileAlreadyExists => 6
  | .NoSuchUser => 7
  | .OptionNotSupport => 8

/-- The library error type from src/error.rs (`Error`).  Payloads of the
wrapped foreign errors (io, utf8, addr-parse) are irrelevant to control flow
and are dropped. -/
inductive Error
  | AddrParse
  | FileNotFound
  | InvalidFileName
  | InvalidMode
  | InvalidOpCode
  | InvalidPacketLength
  | Io
  | MissingErrorMessage
  | MissingFileName
  | MissingMode
  | Timedout
  | Utf8
deriving DecidableEq, Repr

/-- `Error::error_code` from src/error.rs. -/
def Error.error_code : Error → ErrorCode
  | .FileNotFound => .FileNotFound
  | .InvalidFileName | .InvalidMode | .InvalidOpCode | .InvalidPacketLength
  | .MissingErrorMessage | .MissingFileName | .MissingMode => .IllegalTftpOp
  | _ => .NotDefined

/-- The negotiated-options record from src/options.rs (`Options`).  Field
values are the stored numerals (`u16`/`u8`/`u64` in the source). -/
structure Options where
  blksize : Option Nat := none
  timeout : Option Nat := none
  tsize : Option Nat := none
  windowsize : Option Nat := none
deriving DecidableEq, Repr

/-- `Options::blksize()` accessor: default 512. -/
def Options.blksizeD (o : Options) : Nat := o.blksize.getD 512

/-- `Options::timeout()` accessor: default 10. -/
def Options.timeoutD (o : Options) : Nat := o.timeout.getD 10

/-- `Options::tsize()` accessor: default 0. -/
def Options.tsizeD (o : Options) : Nat := o.tsize.getD 0

/-- `Options::windowsize()` accessor: default 1. -/
def Options.windowsizeD (o : Options) : Nat := o.windowsize.getD 1

/-- `Options::has_option` from src/options.rs. -/
def Options.has_option (o : Options) : Bool :=
  o.blksize.isSome || o.timeout.isSome || o.tsize.isSome || o.windowsize.isSome

/-- `Options::cut_off` from src/options.rs: clamp a client's options against
the server's configured `limitations`. -/
def Options.cut_off (o limitations : Options) : Options :=
  let o :=
    match o.blksize with
    | some blksize =>
      if (limitations.blksize.map (fun b => decide (b < blksize))).getD false then
        { o with blksize := limitations.blksize }
      else o
    | none => o
  let o := if limitations.timeout.isNone then { o with timeout := none } else o
  let o := if limitations.tsize.isNone then { o with tsize := none } else o
  let o :=
    match o.windowsize with
    | some windowsize =>
      if (limitations.windowsize.map (fun w => decide (w < windowsize))).getD false then
        { o with windowsize := limitations.windowsize }
      else o
    | none => o
  o

/-! Byte-string helpers shared by the options and packet codecs. -/

/-- ASCII lower-casing of one byte; models `str::to_lowercase` on the ASCII
byte strings the codec compares against (the option keys and mode names). -/
def asciiLower (b : Nat) : Nat := if 65 ≤ b ∧ b ≤ 90 then b + 32 else b

/-- ASCII lower-casing of a byte string. -/
def lowerBytes (s : List Nat) : List Nat := s.map asciiLower

/-- Key lower-casing as performed by `String::from_utf8_lossy` followed by
`str::to_lowercase` before the option-name comparisons, modelled at the byte
level: ASCII upper-case letters map down, and the UTF-8 bytes E2 84 AA of
U+212A (KELVIN SIGN, the only code point outside ASCII whose lower-case is
an ASCII letter) map to "k".  Every other byte passes through unchanged,
which is equality-preserving for comparisons against the ASCII option names:
any other character with a non-trivial lower-case maps outside ASCII (or,
for U+0130, to a sequence containing U+0307), so the comparison fails on
both sides alike. -/
def keyLower : List Nat → List Nat
  | [] => []
  | 226 :: b2 :: b3 :: rest2 =>
    if b2 = 132 ∧ b3 = 170 then 107 :: keyLower rest2
    else 226 :: keyLower (b2 :: b3 :: rest2)
  | b :: rest => asciiLower b :: keyLower rest

/-- Rust `str::parse` for an unsigned integer: an optional leading '+', then
one or more ASCII digits; anything else fails.  Returns the numeric value. -/
def parsePlusDigits (s : List Nat) : Option Nat :=
  let ds := match s with
    | b :: rest => if b = 43 then rest else s
    | [] => s
  if ds = [] then none
  else if ds.all (fun b => 48 ≤ b && b ≤ 57) then
    some (ds.foldl (fun a b => a * 10 + (b - 48)) 0)
  else none

/-- Rust `str::parse::<uN>`: `parsePlusDigits` plus the overflow bound of the
target width (`bound` is the maximal representable value). -/
def parseBounded (bound : Nat) (s : List Nat) : Option Nat :=
  match parsePlusDigits s with
  | some v => if v ≤ bound then some v else none
  | none => none

/-- Little-endian decimal digits, with structural fuel (`fuel ≥ n` suffices). -/
def natDigitsAux : Nat → Nat → List Nat
  | 0, _ => []
  | _, 0 => []
  | fuel + 1, n + 1 => (n + 1) % 10 :: natDigitsAux fuel ((n + 1) / 10)

/-- Little-endian list of decimal digits of `n` (empty for 0). -/
def natDigits (n : Nat) : List Nat := natDigitsAux n n

/-- ASCII decimal rendering of `n`; models `u16::to_string` and friends. -/
def decBytes (n : Nat) : List Nat :=
  if n = 0 then [48] else ((natDigits n).reverse).map (fun d => d + 48)

/-- `slice::split(|&b| b == 0)`: split a byte string on NUL separators.  The
result is never empty; a trailing separator yields a trailing empty piece. -/
def splitNul : List Nat → List (List Nat)
  | [] => [[]]
  | b :: rest =>
    if b = 0 then [] :: splitNul rest
    else
      match splitNul rest with
      | h :: t => (b :: h) :: t
      | [] => [[b]]

/-- The byte string "blksize". -/
def blksizeB : List Nat := [98, 108, 107, 115, 105, 122, 101]

/-- The byte string "timeout". -/
def timeoutB : List Nat := [116, 105, 109, 101, 111, 117, 116]

/-- The byte string "tsize". -/
def tsizeB : List Nat := [116, 115, 105, 122, 101]

/-- The byte string "windowsize". -/
def windowsizeB : List Nat := [119, 105, 110, 100, 111, 119, 115, 105, 122, 101]

/-- The byte string "netascii". -/
def netasciiB : List Nat := [110, 101, 116, 97, 115, 99, 105, 105]

/-- The byte string "octet". -/
def octetB : List Nat := [111, 99, 116, 101, 116]

/-- The byte string "mail". -/
def mailB : List Nat := [109, 97, 105, 108]

/-- One iteration body of the `Options::from` parsing loop (src/options.rs):
given one `(key, value)` pair, update the record.  The key comparisons are
case-insensitive (`to_lowercase`, modelled by `keyLower`); values are parsed
at the width of the target field and range-checked; failures leave the field
untouched. -/
def applyPair (o : Options) (k v : List Nat) : Options :=
  let o :=
    if keyLower k = blksizeB then
      match parseBounded 65535 v with
      | some blksize =>
        if 8 ≤ blksize ∧ blksize ≤ 65464 then { o with blksize := some blksize } else o
      | none => o
    else o
  let o :=
    if keyLower k = timeoutB then
      match parseBounded 255 v with
      | some timeout => if 1 ≤ timeout then { o with timeout := some timeout } else o
      | none => o
    else o
  let o :=
    if keyLower k = tsizeB then
      match parseBounded (2 ^ 64 - 1) v with
      | some tsize => { o with tsize := some tsize }
      | none => o
    else o
  let o :=
    if keyLower k = windowsizeB then
      match parseBounded 65535 v with
      | some windowsize =>
        if 1 ≤ windowsize then { o with windowsize := some windowsize } else o
      | none => o
    else o
  o

/-- The `Options::from` loop over the NUL-split pieces: take a key piece and a
value piece; if either is missing, stop. -/
def optionsFromLoop : List (List Nat) → Options → Options
  | [], o => o
  | [_], o => o
  | k :: v :: rest, o => optionsFromLoop rest (applyPair o k v)

/-- `Options::from(&mut Bytes)` from src/options.rs. -/
def optionsFrom (buf : List Nat) : Options :=
  optionsFromLoop (splitNul buf) {}

/-- `Options::as_bytes` from src/options.rs: each present field is rendered as
`name NUL decimal-value NUL`, in declaration order. -/
def Options.as_bytes (o : Options) : List Nat :=
  (match o.blksize with
   | some blksize => blksizeB ++ 0 :: decBytes blksize ++ [0]
   | none => []) ++
  (match o.timeout with
   | some timeout => timeoutB ++ 0 :: decBytes timeout ++ [0]
   | none => []) ++
  (match o.tsize with
   | some tsize => tsizeB ++ 0 :: decBytes tsize ++ [0]
   | none => []) ++
  (match o.windowsize with
   | some windowsize => windowsizeB ++ 0 :: decBytes windowsize ++ [0]
   | none => [])

/-! Packet codec (src/packet.rs). -/

/-- One UTF-8 continuation byte in [lo, hi]; returns the remainder. -/
def utf8Cont1 (lo hi : Nat) : List Nat → Option (List Nat)
  | b2 :: r2 => if lo ≤ b2 ∧ b2 ≤ hi then some r2 else none
  | [] => none

/-- Two continuation bytes: the first in [lo, hi], the second in [80, BF]. -/
def utf8Cont2 (lo hi : Nat) (l : List Nat) : Option (List Nat) :=
  (utf8Cont1 lo hi l).bind (utf8Cont1 0x80 0xBF)

/-- Three continuation bytes: the first in [lo, hi], the rest in [80, BF]. -/
def utf8Cont3 (lo hi : Nat) (l : List Nat) : Option (List Nat) :=
  (utf8Cont2 lo hi l).bind (utf8Cont1 0x80 0xBF)

/-- Strict UTF-8 validity, fuel-indexed structurally (each step consumes at
least one byte and one unit of fuel, so fuel = length is exact). -/
def validUtf8Aux : Nat → List Nat → Bool
  | 0, l => l.isEmpty
  | _ + 1, [] => true
  | fuel + 1, b :: rest =>
    if b ≤ 0x7F then validUtf8Aux fuel rest
    else if b < 0xC2 then false
    else if b ≤ 0xDF then
      match utf8Cont1 0x80 0xBF rest with
      | some r => validUtf8Aux fuel r
      | none => false
    else if b ≤ 0xEF then
      match utf8Cont2 (if b = 0xE0 then 0xA0 else 0x80)
          (if b = 0xED then 0x9F else 0xBF) rest with
      | some r => validUtf8Aux fuel r
      | none => false
    else if b ≤ 0xF4 then
      match utf8Cont3 (if b = 0xF0 then 0x90 else 0x80)
          (if b = 0xF4 then 0x8F else 0xBF) rest with
      | some r => validUtf8Aux fuel r
      | none => false
    else false

/-- Strict UTF-8 validity of a byte string; models the check performed by
`String::from_utf8` (no overlong forms, no surrogates, max U+10FFFF). -/
def validUtf8 (l : List Nat) : Bool := validUtf8Aux l.length l

/-- Big-endian two-byte encoding (`BufMut::put_u16`). -/
def u16be (n : Nat) : List Nat := [n / 256 % 256, n % 256]

/-- The request record from src/packet.rs (`Request`). -/
structure Request where
  op_code : OpCode
  filename : List Nat
  mode : List Nat
  options : Options
deriving DecidableEq, Repr

/-- `packet::request`: serialise a request.  `opcode(2) | filename | NUL |
mode | NUL | options`. -/
def request (req : Request) : List Nat :=
  u16be req.op_code.toNat ++ req.filename ++ 0 :: req.mode ++ 0 :: req.options.as_bytes

/-- `packet::parse_opcode`: needs two bytes; unknown numeric opcodes give
`none` (the caller decides fatality).  Returns the remaining buffer. -/
def parse_opcode (buf : List Nat) : Except Error (Option OpCode × List Nat) :=
  match buf with
  | b1 :: b2 :: rest =>
    let code := b1 * 256 + b2
    .ok
      (if code = 1 then some .Rrq
       else if code = 2 then some .Wrq
       else if code = 3 then some .Data
       else if code = 4 then some .Ack
       else if code = 5 then some .Error
       else if code = 6 then some .Oack
       else none,
       rest)
  | _ => .error .InvalidPacketLength

/-- `packet::parse_blocknum`: needs two bytes, big-endian.  Returns the
remaining buffer (the payload, for DATA). -/
def parse_blocknum (buf : List Nat) : Except Error (Nat × List Nat) :=
  match buf with
  | b1 :: b2 :: rest => .ok (b1 * 256 + b2, rest)
  | _ => .error .InvalidPacketLength

/-- `packet::parse_request` from src/packet.rs.  Faithful to the source: the
options are parsed from the buffer as left after the opcode — that buffer
still begins with `filename NUL mode NUL`, so `Options::from` sees
`(filename, mode)` as its first key/value pair. -/
def parse_request (buf : List Nat) : Except Error Request :=
  if buf.length < 6 then .error .InvalidPacketLength
  else
    match parse_opcode buf with
    | .error e => .error e
    | .ok (none, _) => .error .InvalidOpCode
    | .ok (some op_code, rest) =>
      match splitNul rest with
      | [] => .error .MissingFileName
      | filename :: restPieces =>
        if ¬ validUtf8 filename then .error .Utf8
        else
          match restPieces with
          | [] => .error .MissingMode
          | mode :: _ =>
            if ¬ validUtf8 mode then .error .Utf8
            else if lowerBytes mode = netasciiB ∨ lowerBytes mode = octetB ∨
                lowerBytes mode = mailB then
              .ok { op_code, filename, mode, options := optionsFrom rest }
            else .error .InvalidMode

/-! File translator (src/file.rs), unix variant.  The file under the reader
is the byte list `src`; the writer's file is the byte list `file`.  A read
returns `(source bytes consumed, wire bytes produced, carry)`; a write
returns `(new file, bytes written, carry)`. -/

/-- `read_netascii` (unix): translate up to `cap` wire bytes out of `src`,
starting from carry `lastch`.  LF becomes CR LF, CR becomes CR NUL; a byte
that does not fit is carried in the returned `lastch`. -/
def read_netascii : List Nat → Option Nat → Nat → Nat × List Nat × Option Nat
  | _, lastch, 0 => (0, [], lastch)
  | _, some c, 1 => (0, [c], none)
  | [], some c, _ + 2 => (0, [c], none)
  | b :: rest, some c, m + 2 =>
    if b = LF then
      match m with
      | 0 => (1, [c, CR], some LF)
      | k + 1 =>
        let r := read_netascii rest none k
        (r.1 + 1, c :: CR :: LF :: r.2.1, r.2.2)
    else if b = CR then
      let r := read_netascii rest (some NULL) m
      (r.1 + 1, c :: CR :: r.2.1, r.2.2)
    else
      let r := read_netascii rest none m
      (r.1 + 1, c :: b :: r.2.1, r.2.2)
  | [], none, _ + 1 => (0, [], none)
  | b :: rest, none, n + 1 =>
    if b = LF then
      match n with
      | 0 => (1, [CR], some LF)
      | k + 1 =>
        let r := read_netascii rest none k
        (r.1 + 1, CR :: LF :: r.2.1, r.2.2)
    else if b = CR then
      let r := read_netascii rest (some NULL) n
      (r.1 + 1, CR :: r.2.1, r.2.2)
    else
      let r := read_netascii rest none n
      (r.1 + 1, b :: r.2.1, r.2.2)

/-- `read_octet`: transparent positional read of up to `cap` bytes. -/
def read_octet (src : List Nat) (_lastch : Option Nat) (cap : Nat) :
    Nat × List Nat × Option Nat :=
  ((src.take cap).length, src.take cap, none)

/-- `file::read`: seek to `reader_pos`, then dispatch on the mode string. -/
def fileRead (src : List Nat) (reader_pos : Nat) (mode : List Nat)
    (lastch : Option Nat) (cap : Nat) : Nat × List Nat × Option Nat :=
  if mode = octetB then read_octet (src.drop reader_pos) lastch cap
  else read_netascii (src.drop reader_pos) lastch cap

/-- `write_netascii` (non-windows): CR NUL collapses to CR (the NUL is
skipped), CR LF rewinds one byte over the written CR and writes LF, anything
else is written verbatim. -/
def write_netascii (file : List Nat) (lastch : Option Nat) :
    List Nat → List Nat × Nat × Option Nat
  | [] => (file, 0, lastch)
  | ch :: rest =>
    if ch = NULL ∧ lastch.isSome then
      write_netascii file none rest
    else if ch = CR then
      let r := write_netascii (file ++ [ch]) (some ch) rest
      (r.1, r.2.1 + 1, r.2.2)
    else if ch = LF ∧ lastch.isSome then
      let r := write_netascii (file.dropLast ++ [ch]) none rest
      (r.1, r.2.1 + 1, r.2.2)
    else
      let r := write_netascii (file ++ [ch]) none rest
      (r.1, r.2.1 + 1, r.2.2)

/-- `write_octet`: append the buffer verbatim; the carry is ignored and
cleared. -/
def write_octet (file : List Nat) (_lastch : Option Nat) (buf : List Nat) :
    List Nat × Nat × Option Nat :=
  (file ++ buf, buf.length, none)

/-- `file::write`: seek to end, dispatch on the mode string, flush. -/
def fileWrite (file : List Nat) (buf : List Nat) (mode : List Nat)
    (lastch : Option Nat) : List Nat × Nat × Option Nat :=
  if mode = octetB then write_octet file lastch buf else write_netascii file lastch buf

/-- Chunked netascii reading as the sending session performs it: read a chunk
of at most `C` wire bytes, advance the reader position by the consumed count,
thread the carry, and stop after the first short chunk (the transfer's final
DATA).  `fuel` bounds the number of chunks; `none` means fuel ran out. -/
def readAllNetascii (src : List Nat) (C : Nat) :
    Nat → Nat → Option Nat → Option (List Nat)
  | 0, _, _ => none
  | fuel + 1, pos, lastch =>
    let r := read_netascii (src.drop pos) lastch C
    if r.2.1.length < C then some r.2.1
    else
      match readAllNetascii src C fuel (pos + r.1) r.2.2 with
      | some rest => some (r.2.1 ++ rest)
      | none => none

/-! Session engine (src/session.rs). -/

/-- `TftpSession::blocknum_ack_add`: `checked_add` on u16, with any overflow
collapsed to `ROLLOVER` (0). -/
def blocknum_ack_add (blocknum_ack value : Nat) : Nat :=
  if blocknum_ack + value ≤ 65535 then blocknum_ack + value else ROLLOVER

/-- `TftpSession::blocknum_expect`: is the received block number inside the
session's acknowledgement window? -/
def blocknum_expect (blocknum_ack windowsize num : Nat) : Bool :=
  let mn := blocknum_ack_add blocknum_ack 1
  let mx := blocknum_ack_add blocknum_ack windowsize
  if mn ≤ mx then decide (mn ≤ num) && decide (num ≤ mx)
  else decide (mn ≤ num) || decide (num ≤ mx)

/-- `TftpSession::wait_for_recv` inner loop, fuel-indexed for executability
(fuel 10 is exact: the retransmit counter starts at 1 and the loop exits at
10).  `recv i` is the outcome of the i-th receive attempt (`none` = the
timeout fired).  Returns the received value (or `none` for `Timedout`) and
the number of times the send action was re-executed. -/
def waitLoop {α : Type} (recv : Nat → Option α) : Nat → Nat → Nat → Option α × Nat
  | 0, _, _ => (none, 0)
  | fuel + 1, i, retransmit =>
    match recv i with
    | some r => (some r, 0)
    | none =>
      if 10 ≤ retransmit then (none, 0)
      else
        let p := waitLoop recv fuel (i + 1) (retransmit + 1)
        (p.1, p.2 + 1)

/-- `TftpSession::wait_for_recv`: one initial send (not counted in the
returned resend count), then the receive/retransmit loop. -/
def wait_for_recv {α : Type} (recv : Nat → Option α) : Option α × Nat :=
  waitLoop recv 10 0 1

/-- The mutable per-session state touched by the transfer driver (a
projection of `TftpSession`: socket and file handles become the modelled
`file` byte list). -/
structure TftpSession where
  blocknum_ack : Nat
  received_data : Nat
  rollover : Nat
  lastch : Option Nat
  mode : List Nat
  options : Options
  file : List Nat
deriving DecidableEq, Repr

/-- The observable step `handle_data` takes after processing one DATA packet:
which ACK (if any) goes out, and whether the loop continues. -/
inductive DataStep
  | ackRecvClear (ack : Nat)
  | finish (ack : Nat)
  | windowAck (ack : Nat)
  | recvNext
deriving DecidableEq, Repr

/-- `handle_data` from src/lib.rs: the receiving-side state machine for one
incoming DATA packet (block number and payload still serialised in `buf`).
`ackRecvClear` = ACK current `blocknum_ack` and clear the window counter
(future block); `finish` = final short block, ACK and terminate;
`windowAck` = window full, cumulative ACK; `recvNext` = keep receiving. -/
def handle_data (s : TftpSession) (buf : List Nat) :
    Except Error (TftpSession × DataStep) :=
  match parse_blocknum buf with
  | .error e => .error e
  | .ok (blocknum, payload) =>
    let expect := blocknum_ack_add s.blocknum_ack 1
    if expect < blocknum then
      .ok ({ s with received_data := 0 }, .ackRecvClear s.blocknum_ack)
    else if expect = blocknum then
      let s := { s with received_data := s.received_data + 1 }
      let s := if expect = ROLLOVER then { s with rollover := s.rollover + 1 } else s
      let w := fileWrite s.file payload s.mode s.lastch
      let s := { s with file := w.1, lastch := w.2.2, blocknum_ack := blocknum }
      if payload.length < s.options.blksizeD then
        .ok (s, .finish s.blocknum_ack)
      else if s.received_data = s.options.windowsizeD then
        .ok ({ s with received_data := 0 }, .windowAck s.blocknum_ack)
      else
        .ok (s, .recvNext)
    else
      .ok (s, .recvNext)

/-! Server request handling (src/server.rs). -/

/-- A filesystem path: an absolute-or-relative marker plus a segment list
(each segment a byte string).  Models `std::path::PathBuf` at the granularity
the server uses it. -/
structure RPath where
  absolute : Bool
  segs : List (List Nat)
deriving DecidableEq, Repr

/-- `PathBuf::push`: an absolute argument replaces the whole path. -/
def RPath.push (base arg : RPath) : RPath :=
  if arg.absolute then arg else ⟨base.absolute, base.segs ++ arg.segs⟩

/-- `Path::starts_with`: component-wise prefix (the root component included,
so an absolute pattern never matches a relative path). -/
def RPath.starts_with (p root : RPath) : Bool :=
  decide (p.absolute = root.absolute) && decide (root.segs <+: p.segs)

/-- The byte string "..". -/
def dotdotB : List Nat := [46, 46]

/-- Filesystem oracle: outcome of the host calls `handle_request` performs.
`canonicalize` returns `none` when the path cannot be resolved (in
particular when the file does not exist); `openRead`/`openCreate` tell
whether the subsequent open succeeds; `fileLen` is the metadata length used
by `Options::set_tsize`. -/
structure FsOracle where
  canonicalize : RPath → Option RPath
  openRead : RPath → Bool
  openCreate : RPath → Bool
  fileLen : RPath → Nat

/-- A parsed request at the path level: opcode plus the requested filename
interpreted as a path. -/
structure ParsedRequest where
  op : OpCode
  filename : RPath
  options : Options
deriving Repr

/-- What the session holds when `handle_request` proceeds into the transfer:
the opened local file and the clamped options. -/
inductive Opened
  | reader (p : RPath) (options : Options)
  | writer (p : RPath) (options : Options)
deriving DecidableEq, Repr

/-- `Options::set_tsize`: if tsize was negotiated, replace it with the file's
length. -/
def Options.set_tsize (o : Options) (len : Nat) : Options :=
  if o.tsize.isSome then { o with tsize := some len } else o

/-- `handle_request` from src/server.rs, after parsing: join the filename
under root; RRQ canonicalizes the result and requires the resolved path to
stay under root before opening for read; WRQ requires the joined path to
stay under root and be free of ".." segments before create-new.  Any other
opcode is `InvalidOpCode`. -/
def handle_request (fs : FsOracle) (root : RPath) (req : ParsedRequest)
    (limitations : Options) : Except Error Opened :=
  let filepath := root.push req.filename
  match req.op with
  | .Rrq =>
    match fs.canonicalize filepath with
    | none => .error .Io
    | some local_file =>
      if ¬ (local_file.starts_with root) then .error .InvalidFileName
      else if ¬ fs.openRead local_file then .error .Io
      else
        .ok (.reader local_file
          (((req.options.cut_off limitations)).set_tsize (fs.fileLen local_file)))
  | .Wrq =>
    if (¬ filepath.starts_with root) || filepath.segs.contains dotdotB then
      .error .InvalidFileName
    else if ¬ fs.openCreate filepath then .error .Io
    else .ok (.writer filepath (req.options.cut_off limitations))
  | _ => .error .InvalidOpCode

/-! Theorems. -/

/-- C1 counterexample: with `blocknum_ack = 65535` and windowsize 2, the block
number 1 equals `(65535 + 2) mod 2^16`, so it lies in the modular interval
`(n, n + W]` the claim describes, yet `blocknum_expect` rejects it: the
source's `checked_add` collapses every overflow to `ROLLOVER = 0` instead of
wrapping. -/
theorem blocknum_expect_mod_counterexample :
    blocknum_expect 65535 2 1 = false ∧ 1 ≤ 2 ∧ 2 ≤ 65535 ∧
      (65535 + 2) % 65536 = 1 := by decide

/-- C1 (amended): for `n, b ≤ 65535` and `1 ≤ W ≤ 65535`, `blocknum_expect`
accepts `b` iff `n < b ≤ n + W` when `n + W ≤ 65535`, and otherwise iff
`n < b` or `b = 0`; consequently it agrees with the modular interval
`(n, n + W] mod 2^16` exactly as long as `n + W ≤ 2^16` (window crossing the
rollover boundary by at most one position). -/
theorem blocknum_expect_characterization (n W b : Nat) (hn : n ≤ 65535)
    (hW1 : 1 ≤ W) (hW2 : W ≤ 65535) (hb : b ≤ 65535) :
    (blocknum_expect n W b = true ↔
      (if n + W ≤ 65535 then n < b ∧ b ≤ n + W else n < b ∨ b = 0)) ∧
    (n + W ≤ 65536 →
      (blocknum_expect n W b = true ↔ ∃ k, 1 ≤ k ∧ k ≤ W ∧ b = (n + k) % 65536)) := by
  have hchar : blocknum_expect n W b = true ↔
      (if n + W ≤ 65535 then n < b ∧ b ≤ n + W else n < b ∨ b = 0) := by
    simp only [blocknum_expect, blocknum_ack_add, ROLLOVER]
    split_ifs <;> simp only [Bool.and_eq_true, Bool.or_eq_true, decide_eq_true_eq] <;> omega
  refine ⟨hchar, fun hle => hchar.trans ?_⟩
  constructor
  · intro h
    by_cases hcase : n + W ≤ 65535
    · rw [if_pos hcase] at h
      exact ⟨b - n, by omega, by omega, by omega⟩
    · rw [if_neg hcase] at h
      rcases h with h | h
      · exact ⟨b - n, by omega, by omega, by omega⟩
      · exact ⟨W, hW1, le_refl W, by omega⟩
  · rintro ⟨k, hk1, hk2, hbk⟩
    split_ifs <;> omega

/-- C1 witness: a window fully inside the 16-bit range, accepted. -/
theorem blocknum_expect_characterization_witness :
    blocknum_expect 10 5 12 = true :=
  ((blocknum_expect_characterization 10 5 12 (by decide) (by decide) (by decide)
      (by decide)).1).mpr (by decide)

/-- Helper for C2: the retransmit loop when every receive attempt times out:
starting at counter `r` (1 ≤ r ≤ 10) with fuel `11 - r`, the loop fails with
`10 - r` resends. -/
theorem waitLoop_all_none {α : Type} (recv : Nat → Option α)
    (hall : ∀ j, recv j = none) :
    ∀ f i r, 1 ≤ r → r ≤ 10 → f = 11 - r → waitLoop recv f i r = (none, 10 - r) := by
  intro f
  induction f with
  | zero => intro i r h1 h2 h3; omega
  | succ f ih =>
    intro i r h1 h2 h3
    simp only [waitLoop, hall i]
    split_ifs with h
    · have : r = 10 := by omega
      simp [this]
    · have hrec := ih (i + 1) (r + 1) (by omega) (by omega) (by omega)
      rw [hrec]
      show ((none : Option α), 10 - (r + 1) + 1) = (none, 10 - r)
      rw [show 10 - (r + 1) + 1 = 10 - r from by omega]

/-- Helper for C2: if receive attempt `i + k` succeeds with value `v` and all
earlier attempts time out, the loop returns `v` after `k` resends. -/
theorem waitLoop_found {α : Type} (recv : Nat → Option α) :
    ∀ f k i r v, recv (i + k) = some v → (∀ j, j < k → recv (i + j) = none) →
      k + r ≤ 10 → k < f → waitLoop recv f i r = (some v, k) := by
  intro f
  induction f with
  | zero => intro k i r v _ _ _ h; omega
  | succ f ih =>
    intro k i r v hfound hbefore hk hf
    match k with
    | 0 =>
      have h0 : recv i = some v := by simpa using hfound
      simp [waitLoop, h0]
    | m + 1 =>
      have h0 : recv i = none := by simpa using hbefore 0 (by omega)
      simp only [waitLoop, h0]
      split_ifs with h
      · omega
      · have := ih m (i + 1) (r + 1) v
          (by have := hfound; rw [show i + 1 + m = i + (m + 1) by omega]; exact this)
          (fun j hj => by
            rw [show i + 1 + j = i + (j + 1) by omega]
            exact hbefore (j + 1) (by omega))
          (by omega) (by omega)
        simp [this]

/-- C2 counterexample: when no datagram ever arrives, `wait_for_recv`
re-executes the send action 9 times after the initial send — not 10 — before
failing: the loop's counter starts at 1 and the `10 ≤ retransmit` exit fires
on the tenth receive attempt. -/
theorem wait_for_recv_ten_counterexample :
    wait_for_recv (fun _ => (none : Option Nat)) = (none, 9) ∧ (9 : Nat) ≠ 10 := by
  decide

/-- C2 (amended): if every receive attempt times out, `wait_for_recv`
performs exactly 9 retransmissions after the initial send (10 transmissions
and 10 receive attempts in total) and then fails with `Timedout` (`none`);
if the k-th receive attempt (k ≤ 9, 0-based) is the first to deliver a value,
that value is returned after exactly k retransmissions. -/
theorem wait_for_recv_policy {α : Type} (recv : Nat → Option α) :
    ((∀ i, recv i = none) → wait_for_recv recv = (none, 9)) ∧
    (∀ k v, k ≤ 9 → recv k = some v → (∀ i, i < k → recv i = none) →
      wait_for_recv recv = (some v, k)) := by
  constructor
  · intro hall
    exact waitLoop_all_none recv hall 10 0 1 (by omega) (by omega) (by omega)
  · intro k v hk hfound hbefore
    exact waitLoop_found recv 10 k 0 1 v (by simpa using hfound)
      (fun j hj => by simpa using hbefore j hj) (by omega) (by omega)

/-- C2 witness: reception on the fourth attempt (three timeouts) returns the
value after three retransmissions. -/
theorem wait_for_recv_policy_witness :
    wait_for_recv (fun i => if i = 3 then some 42 else none) = (some 42, 3) :=
  (wait_for_recv_policy _).2 3 42 (by decide) (by decide)
    (fun i hi => by simp only [if_neg (by omega : ¬ i = 3)])

/-- Field-wise description of `Options::cut_off`: helper for C8. -/
theorem cut_off_fields (o L : Options) :
    o.cut_off L =
      { blksize :=
          match o.blksize, L.blksize with
          | some b, some lb => if lb < b then some lb else some b
          | _, _ => o.blksize,
        timeout := if L.timeout.isSome then o.timeout else none,
        tsize := if L.tsize.isSome then o.tsize else none,
        windowsize :=
          match o.windowsize, L.windowsize with
          | some w, some lw => if lw < w then some lw else some w
          | _, _ => o.windowsize } := by
  obtain ⟨ob, ot, ots, ow⟩ := o
  obtain ⟨lb, lt, lts, lw⟩ := L
  simp only [Options.cut_off]
  cases ob <;> cases lb <;> cases ow <;> cases lw <;> cases lt <;> cases lts <;>
    simp <;> split_ifs <;> (try simp) <;> omega

/-- C8: `cut_off` replaces `blksize` by the limitation exactly when both are
present and the client's value exceeds the limit, likewise for `windowsize`;
`timeout` and `tsize` are stripped exactly when absent from the limitations;
all other fields pass through unchanged. -/
theorem cut_off_spec (o L : Options) :
    ((∃ b lb, o.blksize = some b ∧ L.blksize = some lb ∧ lb < b) →
        (o.cut_off L).blksize = L.blksize) ∧
    ((¬ ∃ b lb, o.blksize = some b ∧ L.blksize = some lb ∧ lb < b) →
        (o.cut_off L).blksize = o.blksize) ∧
    ((o.cut_off L).timeout = if L.timeout.isSome then o.timeout else none) ∧
    ((o.cut_off L).tsize = if L.tsize.isSome then o.tsize else none) ∧
    ((∃ w lw, o.windowsize = some w ∧ L.windowsize = some lw ∧ lw < w) →
        (o.cut_off L).windowsize = L.windowsize) ∧
    ((¬ ∃ w lw, o.windowsize = some w ∧ L.windowsize = some lw ∧ lw < w) →
        (o.cut_off L).windowsize = o.windowsize) := by
  have h := cut_off_fields o L
  refine ⟨?_, ?_, ?_, ?_, ?_, ?_⟩ <;> rw [h]
  · rintro ⟨b, lb, hb, hlb, hlt⟩
    simp [hb, hlb, hlt]
  · intro hne
    rcases ho : o.blksize with _ | b
    · simp [ho]
    · rcases hL : L.blksize with _ | lb
      · simp [ho, hL]
      · have hnlt : ¬ lb < b := fun hlt => hne ⟨b, lb, ho, hL, hlt⟩
        simp [ho, hL, hnlt]
  · rintro ⟨w, lw, hw, hlw, hlt⟩
    simp [hw, hlw, hlt]
  · intro hne
    rcases ho : o.windowsize with _ | w
    · simp [ho]
    · rcases hL : L.windowsize with _ | lw
      · simp [ho, hL]
      · have hnlt : ¬ lw < w := fun hlt => hne ⟨w, lw, ho, hL, hlt⟩
        simp [ho, hL, hnlt]

/-- C8 witness: a blksize above the limit is clamped down to it. -/
theorem cut_off_spec_witness :
    (Options.cut_off { blksize := some 2048 } { blksize := some 512 }).blksize =
      some 512 :=
  (cut_off_spec { blksize := some 2048 } { blksize := some 512 }).1
    ⟨2048, 512, rfl, rfl, by omega⟩

/-- C10: in octet mode the translator is the identity with no carry: a read
consumes exactly as many source bytes as it produces wire bytes and returns
no carry; a write appends the buffer verbatim, returns its length, and clears
the carry whatever carry was passed in. -/
theorem octet_identity (src : List Nat) (pos : Nat) (lastch : Option Nat)
    (cap : Nat) (file : List Nat) (l : Option Nat) (buf : List Nat) :
    (fileRead src pos octetB lastch cap).1 =
      (fileRead src pos octetB lastch cap).2.1.length ∧
    (fileRead src pos octetB lastch cap).2.1 = (src.drop pos).take cap ∧
    (fileRead src pos octetB lastch cap).2.2 = none ∧
    fileWrite file buf octetB l = (file ++ buf, buf.length, none) := by
  simp [fileRead, fileWrite, read_octet, write_octet]

/-- C6 counterexample: an RRQ whose file cannot be resolved fails with
`Error::Io` (from the failed canonicalize), and the error code placed in the
outgoing ERROR packet is 0 (NotDefined), not 1 (FileNotFound). -/
theorem rrq_missing_file_counterexample :
    handle_request
      ⟨fun _ => none, fun _ => true, fun _ => true, fun _ => 0⟩
      ⟨true, [[115]]⟩ ⟨.Rrq, ⟨false, [[97]]⟩, {}⟩ {} = .error .Io ∧
    Error.Io.error_code.toNat = 0 ∧ Error.Io.error_code.toNat ≠ 1 :=
  ⟨rfl, rfl, by decide⟩

/-- C6 (amended): for every RRQ whose joined path fails to canonicalize (in
particular, the file does not exist), `handle_request` terminates with
`Error::Io`, whose mapped TFTP error code — the one serialised into the
outgoing ERROR packet — is 0 (NotDefined); `Error::FileNotFound`/code 1 is
not produced on this path. -/
theorem rrq_missing_file_error (fs : FsOracle) (root : RPath)
    (req : ParsedRequest) (lims : Options) (hop : req.op = .Rrq)
    (hmiss : fs.canonicalize (root.push req.filename) = none) :
    handle_request fs root req lims = .error .Io ∧
      Error.Io.error_code.toNat = 0 := by
  refine ⟨?_, rfl⟩
  simp [handle_request, hop, hmiss]

/-- C6 witness: concrete missing-file RRQ mapped through the theorem. -/
theorem rrq_missing_file_error_witness :
    handle_request ⟨fun _ => none, fun _ => true, fun _ => true, fun _ => 0⟩
      ⟨true, [[115]]⟩ ⟨.Rrq, ⟨false, [[98]]⟩, {}⟩ {} = .error .Io :=
  (rrq_missing_file_error _ _ _ _ rfl rfl).1

/-- C7 counterexample: an RRQ filename containing a ".." segment whose
canonicalized resolution lands back inside the root is not rejected — the
session opens the file and proceeds (`Opened.reader`), contradicting the
claim that every filename containing ".." yields `InvalidFileName`. -/
theorem path_containment_counterexample :
    handle_request
      ⟨fun _ => some ⟨true, [[115], [98]]⟩, fun _ => true, fun _ => true, fun _ => 0⟩
      ⟨true, [[115]]⟩ ⟨.Rrq, ⟨false, [[97], dotdotB, [98]]⟩, {}⟩ {} =
      .ok (.reader ⟨true, [[115], [98]]⟩ {}) := by
  rfl

/-- C7 (amended): WRQ rejects with `InvalidFileName`, before any open, every
filename whose joined path escapes the root or contains a ".." segment; RRQ
rejects with `InvalidFileName`, before any open, every filename whose
canonicalized resolution exists but lies outside the root.  (An RRQ filename
with ".." that resolves back inside the root is accepted, and a
non-resolvable RRQ path gives `Error::Io` instead — see the
counterexample.) -/
theorem path_containment (fs : FsOracle) (root : RPath) (req : ParsedRequest)
    (lims : Options) :
    (req.op = .Wrq →
      ((root.push req.filename).starts_with root = false ∨
        dotdotB ∈ (root.push req.filename).segs) →
      handle_request fs root req lims = .error .InvalidFileName) ∧
    (req.op = .Rrq → ∀ cf, fs.canonicalize (root.push req.filename) = some cf →
      cf.starts_with root = false →
      handle_request fs root req lims = .error .InvalidFileName) := by
  constructor
  · intro hop hbad
    simp only [handle_request, hop]
    rcases hbad with h | h <;> simp [h]
  · intro hop cf hcanon hout
    simp [handle_request, hop, hcanon, hout]

/-- C7 witness: a WRQ filename with a ".." segment is rejected for every
filesystem oracle (no file is opened). -/
theorem path_containment_witness :
    handle_request ⟨fun _ => some ⟨true, [[115]]⟩, fun _ => true, fun _ => true, fun _ => 0⟩
      ⟨true, [[115]]⟩ ⟨.Wrq, ⟨false, [dotdotB, [97]]⟩, {}⟩ {} =
      .error .InvalidFileName :=
  (path_containment _ _ _ _).1 rfl (Or.inr (by decide))

/-- C5: when the incoming DATA block number equals `blocknum_ack + 1` (the
expected block), `handle_data` writes the translated payload into the file,
stores the translator's new carry in `lastch`, and advances `blocknum_ack`
to the received block number; if additionally the payload is shorter than
the negotiated blksize, it sends the final ACK of that block and terminates
(`DataStep.finish`). -/
theorem handle_data_expected (s : TftpSession) (b : Nat) (payload : List Nat)
    (hb : b = blocknum_ack_add s.blocknum_ack 1) :
    ∃ s2 step,
      handle_data s (b / 256 :: b % 256 :: payload) = .ok (s2, step) ∧
      s2.file = (fileWrite s.file payload s.mode s.lastch).1 ∧
      s2.lastch = (fileWrite s.file payload s.mode s.lastch).2.2 ∧
      s2.blocknum_ack = b ∧
      (payload.length < s.options.blksizeD → step = .finish b) := by
  have harith : b / 256 * 256 + b % 256 = b := by omega
  have hparse : parse_blocknum (b / 256 :: b % 256 :: payload) = .ok (b, payload) := by
    simp [parse_blocknum, harith]
  simp only [handle_data, hparse]
  rw [← hb]
  simp only [lt_irrefl, ite_false, if_pos rfl, reduceIte]
  by_cases hroll : b = ROLLOVER <;> simp only [hroll, reduceIte, if_pos, if_neg, ite_true,
    ite_false, if_true, if_false] <;>
    split_ifs with hlen hwin <;>
    first
      | exact ⟨_, _, rfl, rfl, rfl, rfl, fun _ => rfl⟩
      | exact ⟨_, _, rfl, rfl, rfl, rfl, fun hc => absurd hc hlen⟩

/-- C5 witness: a fresh session receiving the expected DATA block 1 with a
one-byte payload (shorter than the default blksize 512). -/
theorem handle_data_expected_witness :
    ∃ s2 step,
      handle_data ⟨0, 0, 0, none, octetB, {}, []⟩ (1 / 256 :: 1 % 256 :: [7]) =
        .ok (s2, step) ∧
      s2.file = (fileWrite [] [7] octetB none).1 ∧
      s2.lastch = (fileWrite [] [7] octetB none).2.2 ∧
      s2.blocknum_ack = 1 ∧
      ([7].length < Options.blksizeD {} → step = .finish 1) :=
  handle_data_expected ⟨0, 0, 0, none, octetB, {}, []⟩ 1 [7] (by decide)

/-- Group a NUL-split piece list into (key, value) pairs, dropping a trailing
unpaired key — the access pattern of the `Options::from` loop. -/
def toPairs : List (List Nat) → List (List Nat × List Nat)
  | k :: v :: rest => (k, v) :: toPairs rest
  | _ => []

/-- The `Options::from` loop is the fold of the pair-step over the paired-up
NUL-split pieces. -/
theorem optionsFromLoop_eq : ∀ (l : List (List Nat)) (o : Options),
    optionsFromLoop l o = (toPairs l).foldl (fun a kv => applyPair a kv.1 kv.2) o
  | [], _ => rfl
  | [_], _ => rfl
  | k :: v :: rest, o => by
    simp only [optionsFromLoop, toPairs, List.foldl_cons]
    exact optionsFromLoop_eq rest (applyPair o k v)

/-- C9: `Options::from` reads its buffer as NUL-separated (key, value) pairs
(folding the per-pair step over them, a trailing valueless key ending the
loop); keys are matched case-insensitively — two keys with the same
lower-casing are treated identically, so any case variant of an option name
(including via U+212A for the "k" of blksize) selects that option; a pair
whose key lower-cases to none of blksize/timeout/tsize/windowsize leaves the
record unchanged; and a value outside the valid range of its key leaves that
field unset: blksize outside 8–65464 or not a u16, timeout 0 or not a u8,
tsize not a u64, windowsize 0 or not a u16. -/
theorem options_from_spec :
    (∀ buf, optionsFrom buf =
      (toPairs (splitNul buf)).foldl (fun o kv => applyPair o kv.1 kv.2) {}) ∧
    (∀ o k k2 v, keyLower k = keyLower k2 → applyPair o k v = applyPair o k2 v) ∧
    (∀ o k v, keyLower k ≠ blksizeB → keyLower k ≠ timeoutB →
      keyLower k ≠ tsizeB → keyLower k ≠ windowsizeB → applyPair o k v = o) ∧
    (∀ o v, (parseBounded 65535 v = none ∨
        (∃ n, parseBounded 65535 v = some n ∧ (n < 8 ∨ 65464 < n))) →
      (applyPair o blksizeB v).blksize = o.blksize) ∧
    (∀ o v, (parseBounded 255 v = none ∨ parseBounded 255 v = some 0) →
      (applyPair o timeoutB v).timeout = o.timeout) ∧
    (∀ o v, parseBounded (2 ^ 64 - 1) v = none →
      (applyPair o tsizeB v).tsize = o.tsize) ∧
    (∀ o v, (parseBounded 65535 v = none ∨ parseBounded 65535 v = some 0) →
      (applyPair o windowsizeB v).windowsize = o.windowsize) := by
  refine ⟨fun buf => optionsFromLoop_eq _ _, ?_, ?_, ?_, ?_, ?_, ?_⟩
  · intro o k k2 v h
    simp only [applyPair, h]
  · intro o k v h1 h2 h3 h4
    simp [applyPair, h1, h2, h3, h4]
  · intro o v h
    have e1 : keyLower blksizeB = blksizeB := by decide
    have e2 : keyLower blksizeB ≠ timeoutB := by decide
    have e3 : keyLower blksizeB ≠ tsizeB := by decide
    have e4 : keyLower blksizeB ≠ windowsizeB := by decide
    have f2 : blksizeB ≠ timeoutB := by decide
    have f3 : blksizeB ≠ tsizeB := by decide
    have f4 : blksizeB ≠ windowsizeB := by decide
    rcases h with hnone | ⟨n, hn, hrange⟩
    · simp [applyPair, e1, e2, e3, e4, f2, f3, f4, hnone]
    · simp [applyPair, e1, e2, e3, e4, f2, f3, f4, hn,
        if_neg (show ¬ (8 ≤ n ∧ n ≤ 65464) by omega)]
  · intro o v h
    have e1 : keyLower timeoutB ≠ blksizeB := by decide
    have e2 : keyLower timeoutB = timeoutB := by decide
    have e3 : keyLower timeoutB ≠ tsizeB := by decide
    have e4 : keyLower timeoutB ≠ windowsizeB := by decide
    have f1 : timeoutB ≠ blksizeB := by decide
    have f3 : timeoutB ≠ tsizeB := by decide
    have f4 : timeoutB ≠ windowsizeB := by decide
    rcases h with hnone | hzero
    · simp [applyPair, e1, e2, e3, e4, f1, f3, f4, hnone]
    · simp [applyPair, e1, e2, e3, e4, f1, f3, f4, hzero]
  · intro o v h
    have e1 : keyLower tsizeB ≠ blksizeB := by decide
    have e2 : keyLower tsizeB ≠ timeoutB := by decide
    have e3 : keyLower tsizeB = tsizeB := by decide
    have e4 : keyLower tsizeB ≠ windowsizeB := by decide
    have f1 : tsizeB ≠ blksizeB := by decide
    have f2 : tsizeB ≠ timeoutB := by decide
    have f4 : tsizeB ≠ windowsizeB := by decide
    have h2 : parseBounded 18446744073709551615 v = none := h
    simp [applyPair, e1, e2, e3, e4, f1, f2, f4, h, h2]
  · intro o v h
    have e1 : keyLower windowsizeB ≠ blksizeB := by decide
    have e2 : keyLower windowsizeB ≠ timeoutB := by decide
    have e3 : keyLower windowsizeB ≠ tsizeB := by decide
    have e4 : keyLower windowsizeB = windowsizeB := by decide
    have f1 : windowsizeB ≠ blksizeB := by decide
    have f2 : windowsizeB ≠ timeoutB := by decide
    have f3 : windowsizeB ≠ tsizeB := by decide
    rcases h with hnone | hzero
    · simp [applyPair, e1, e2, e3, e4, f1, f2, f3, hnone]
    · simp [applyPair, e1, e2, e3, e4, f1, f2, f3, hzero]

/-- C9 witness: an unknown key ("X") leaves the record unchanged; a tsize
value of 2^64 (not a u64) leaves tsize unset; and the key "bl(U+212A)size"
(KELVIN SIGN for the k) is treated exactly like "blksize". -/
theorem options_from_spec_witness :
    applyPair {} [88] [49] = {} ∧
    (applyPair {} tsizeB
      [49, 56, 52, 52, 54, 55, 52, 52, 48, 55, 51, 55, 48, 57, 53, 53, 49, 54, 49, 54]).tsize =
      none ∧
    applyPair {} [98, 108, 226, 132, 170, 115, 105, 122, 101] [53, 49, 50] =
      applyPair {} blksizeB [53, 49, 50] :=
  ⟨options_from_spec.2.2.1 {} [88] [49] (by decide) (by decide) (by decide) (by decide),
   options_from_spec.2.2.2.2.2.1 {}
     [49, 56, 52, 52, 54, 55, 52, 52, 48, 55, 51, 55, 48, 57, 53, 53, 49, 54, 49, 54]
     (by decide),
   options_from_spec.2.1 {} [98, 108, 226, 132, 170, 115, 105, 122, 101] blksizeB
     [53, 49, 50] (by decide)⟩

/-- One-byte carry as the wire bytes it still owes. -/
def carryRep : Option Nat → List Nat
  | none => []
  | some c => [c]

/-- Whole-stream netascii encoding (unix): LF to CR LF, CR to CR NUL. -/
def netasciiEncode : List Nat → List Nat
  | [] => []
  | b :: rest =>
    if b = LF then CR :: LF :: netasciiEncode rest
    else if b = CR then CR :: NULL :: netasciiEncode rest
    else b :: netasciiEncode rest

/-- A carry holds at most one byte. -/
theorem carryRep_length_le (l : Option Nat) : (carryRep l).length ≤ 1 := by
  cases l <;> simp [carryRep]

/-- Invariant of one netascii read: the produced wire bytes, followed by the
still-owed carry, are the pending input carry followed by the encoding of the
consumed source bytes; the output fits the buffer; and a short (non-full)
output means the source was exhausted and no carry is pending.  The final
conjunct is the progress bound that drives chunked-reading termination. -/
theorem read_netascii_spec (src : List Nat) (lastch : Option Nat) (cap : Nat) :
    (read_netascii src lastch cap).2.1 ++ carryRep (read_netascii src lastch cap).2.2 =
      carryRep lastch ++ netasciiEncode (src.take (read_netascii src lastch cap).1) ∧
    (read_netascii src lastch cap).2.1.length ≤ cap ∧
    (read_netascii src lastch cap).1 ≤ src.length ∧
    ((read_netascii src lastch cap).2.1.length < cap →
      (read_netascii src lastch cap).2.2 = none ∧
      (read_netascii src lastch cap).1 = src.length) ∧
    ((read_netascii src lastch cap).2.1.length = cap → 1 ≤ cap →
      1 + (carryRep (read_netascii src lastch cap).2.2).length ≤
        2 * (read_netascii src lastch cap).1 + (carryRep lastch).length) := by
  induction src, lastch, cap using read_netascii.induct with
  | case1 t lastch =>
    simp [read_netascii, carryRep, netasciiEncode]
  | case2 t c =>
    simp [read_netascii, carryRep, netasciiEncode]
  | case3 c n =>
    simp [read_netascii, carryRep, netasciiEncode]
  | case4 rest c =>
    simp [read_netascii, carryRep, netasciiEncode]
  | case5 rest c k ih =>
    obtain ⟨ih1, ih2, ih3, ih4, ih5⟩ := ih
    simp only [read_netascii, reduceIte, List.cons_append, List.length_cons,
      List.take_succ_cons, netasciiEncode, carryRep, List.length_take]
    refine ⟨by simpa [carryRep] using ih1, by omega, by omega, ?_, ?_⟩
    · intro hlt
      have := ih4 (by omega)
      simp [this.1, this.2]
    · intro _ _
      have hcl := carryRep_length_le (read_netascii rest none k).2.2
      simp only [carryRep] at hcl
      omega
  | case6 rest c m hne ih =>
    obtain ⟨ih1, ih2, ih3, ih4, ih5⟩ := ih
    simp only [read_netascii, reduceIte, if_neg hne, List.cons_append, List.length_cons,
      List.take_succ_cons, netasciiEncode, carryRep]
    refine ⟨by simpa [carryRep] using ih1, by omega, by omega, ?_, ?_⟩
    · intro hlt
      have := ih4 (by omega)
      simp [this.1, this.2]
    · intro _ _
      have hcl := carryRep_length_le (read_netascii rest (some NULL) m).2.2
      simp only [carryRep] at hcl
      omega
  | case7 b rest c m hbl hbc ih =>
    obtain ⟨ih1, ih2, ih3, ih4, ih5⟩ := ih
    simp only [read_netascii, reduceIte, if_neg hbl, if_neg hbc, List.cons_append,
      List.length_cons, List.take_succ_cons, netasciiEncode, carryRep]
    refine ⟨by simpa [carryRep] using ih1, by omega, by omega, ?_, ?_⟩
    · intro hlt
      have := ih4 (by omega)
      simp [this.1, this.2]
    · intro _ _
      have hcl := carryRep_length_le (read_netascii rest none m).2.2
      simp only [carryRep] at hcl
      omega
  | case8 n =>
    simp [read_netascii, carryRep, netasciiEncode]
  | case9 rest =>
    simp [read_netascii, carryRep, netasciiEncode]
  | case10 rest k ih =>
    obtain ⟨ih1, ih2, ih3, ih4, ih5⟩ := ih
    simp only [read_netascii, reduceIte, List.cons_append, List.length_cons,
      List.take_succ_cons, netasciiEncode, carryRep]
    refine ⟨by simpa [carryRep] using ih1, by omega, by omega, ?_, ?_⟩
    · intro hlt
      have := ih4 (by omega)
      simp [this.1, this.2]
    · intro _ _
      have hcl := carryRep_length_le (read_netascii rest none k).2.2
      simp only [carryRep] at hcl
      omega
  | case11 rest n hne ih =>
    obtain ⟨ih1, ih2, ih3, ih4, ih5⟩ := ih
    simp only [read_netascii, reduceIte, if_neg hne, List.cons_append, List.length_cons,
      List.take_succ_cons, netasciiEncode, carryRep]
    refine ⟨by simpa [carryRep] using ih1, by omega, by omega, ?_, ?_⟩
    · intro hlt
      have := ih4 (by omega)
      simp [this.1, this.2]
    · intro _ _
      have hcl := carryRep_length_le (read_netascii rest (some NULL) n).2.2
      simp only [carryRep] at hcl
      omega
  | case12 b rest n hbl hbc ih =>
    obtain ⟨ih1, ih2, ih3, ih4, ih5⟩ := ih
    simp only [read_netascii, reduceIte, if_neg hbl, if_neg hbc, List.cons_append,
      List.length_cons, List.take_succ_cons, netasciiEncode, carryRep]
    refine ⟨by simpa [carryRep] using ih1, by omega, by omega, ?_, ?_⟩
    · intro hlt
      have := ih4 (by omega)
      simp [this.1, this.2]
    · intro _ _
      have hcl := carryRep_length_le (read_netascii rest none n).2.2
      simp only [carryRep] at hcl
      omega

/-- The whole-stream encoding distributes over concatenation. -/
theorem netasciiEncode_append (a b : List Nat) :
    netasciiEncode (a ++ b) = netasciiEncode a ++ netasciiEncode b := by
  induction a with
  | nil => rfl
  | cons x t ih =>
    simp only [List.cons_append, netasciiEncode]
    split_ifs <;> simp [ih]

/-- Chunked netascii reading (position and carry threaded between chunks,
stopping at the first short chunk) produces exactly the whole-stream encoding
of the source, for any chunk size >= 1, given fuel above the progress
measure. -/
theorem readAllNetascii_encodes (src : List Nat) (C : Nat) (hC : 1 ≤ C) :
    ∀ fuel pos lastch,
      2 * (src.length - pos) + (carryRep lastch).length < fuel →
      readAllNetascii src C fuel pos lastch =
        some (carryRep lastch ++ netasciiEncode (src.drop pos)) := by
  intro fuel
  induction fuel with
  | zero => intro pos lastch h; omega
  | succ f ih =>
    intro pos lastch hfuel
    obtain ⟨h1, h2, h3, h4, h5⟩ := read_netascii_spec (src.drop pos) lastch C
    simp only [readAllNetascii]
    by_cases hshort : (read_netascii (src.drop pos) lastch C).2.1.length < C
    · rw [if_pos hshort]
      obtain ⟨hnone, hall⟩ := h4 hshort
      rw [hnone, show carryRep (none : Option Nat) = [] from rfl,
        List.append_nil, hall, List.take_length] at h1
      rw [h1]
    · rw [if_neg hshort]
      have hfull : (read_netascii (src.drop pos) lastch C).2.1.length = C := by omega
      have hprog := h5 hfull hC
      have hlen : (read_netascii (src.drop pos) lastch C).1 ≤ src.length - pos := by
        have := h3
        simp only [List.length_drop] at this
        omega
      have hrec := ih (pos + (read_netascii (src.drop pos) lastch C).1)
        (read_netascii (src.drop pos) lastch C).2.2 (by omega)
      have hdrop : src.drop (pos + (read_netascii (src.drop pos) lastch C).1) =
          (src.drop pos).drop (read_netascii (src.drop pos) lastch C).1 := by
        rw [List.drop_drop, Nat.add_comm]
      simp only [hrec, hdrop]
      conv_rhs =>
        rw [← List.take_append_drop ((read_netascii (src.drop pos) lastch C).1)
          (src.drop pos)]
      simp only [netasciiEncode_append, ← List.append_assoc, h1]

/-- Writing the whole-stream encoding through the netascii write translation
(carry threaded) reproduces the source bytes exactly and leaves no carry. -/
theorem write_netascii_decode (S : List Nat) :
    ∀ file, (write_netascii file none (netasciiEncode S)).1 = file ++ S ∧
      (write_netascii file none (netasciiEncode S)).2.2 = none := by
  induction S with
  | nil => intro file; simp [netasciiEncode, write_netascii]
  | cons b rest ih =>
    intro file
    by_cases hLF : b = LF
    · subst hLF
      have h1 := (ih (file ++ [LF])).1
      have h2 := (ih (file ++ [LF])).2
      simp only [LF] at h1 h2
      simp [netasciiEncode, write_netascii, NULL, CR, LF, h1, h2]
    · by_cases hCR : b = CR
      · subst hCR
        have h1 := (ih (file ++ [CR])).1
        have h2 := (ih (file ++ [CR])).2
        simp only [CR] at h1 h2
        simp [netasciiEncode, write_netascii, NULL, CR, LF, h1, h2]
      · have h1 := (ih (file ++ [b])).1
        have h2 := (ih (file ++ [b])).2
        simp [netasciiEncode, write_netascii, hLF, hCR, h1, h2]

/-- C3: for every byte sequence S and chunk size C >= 1, reading S through the
netascii read translation in chunks of C — threading the returned carry and
advancing the reader position by the returned consumed count between chunks,
ending at the first short chunk — and then feeding the concatenated wire
bytes through the netascii write translation reproduces exactly S in the
written file (and leaves no carry). -/
theorem netascii_chunked_roundtrip (S : List Nat) (C : Nat) (hC : 1 ≤ C) :
    ∃ wire, readAllNetascii S C (2 * S.length + 2) 0 none = some wire ∧
      (write_netascii [] none wire).1 = S ∧
      (write_netascii [] none wire).2.2 = none := by
  refine ⟨netasciiEncode S, ?_, ?_, ?_⟩
  · have h := readAllNetascii_encodes S C hC (2 * S.length + 2) 0 none
      (by simp [carryRep])
    simpa [carryRep] using h
  · simpa using (write_netascii_decode S []).1
  · exact (write_netascii_decode S []).2

/-- C3 witness: the sequence "a CR LF" read in chunks of 1. -/
theorem netascii_chunked_roundtrip_witness :
    ∃ wire, readAllNetascii [97, 13, 10] 1 (2 * [97, 13, 10].length + 2) 0 none =
      some wire ∧
      (write_netascii [] none wire).1 = [97, 13, 10] ∧
      (write_netascii [] none wire).2.2 = none :=
  netascii_chunked_roundtrip [97, 13, 10] 1 (by decide)

/-- The NUL-split of any byte string is non-empty. -/
theorem splitNul_ne_nil (l : List Nat) : splitNul l ≠ [] := by
  cases l with
  | nil => simp [splitNul]
  | cons b rest =>
    simp only [splitNul]
    split_ifs
    · simp
    · cases h : splitNul rest <;> simp

/-- Splitting a buffer that starts with a NUL-free piece followed by a NUL
separator yields that piece first. -/
theorem splitNul_append_sep (a r : List Nat) (ha : 0 ∉ a) :
    splitNul (a ++ 0 :: r) = a :: splitNul r := by
  induction a with
  | nil => simp [splitNul]
  | cons x t ih =>
    have hx : x ≠ 0 := fun h => ha (by simp [h])
    have ht : 0 ∉ t := fun h => ha (by simp [h])
    simp only [List.cons_append, splitNul, if_neg hx]
    have ih2 : splitNul (List.append t (0 :: r)) = t :: splitNul r := ih ht
    rw [ih2]

/-- Decimal digits are below 10. -/
theorem natDigitsAux_lt (fuel n : Nat) : ∀ d ∈ natDigitsAux fuel n, d < 10 := by
  induction fuel generalizing n with
  | zero => simp [natDigitsAux]
  | succ f ih =>
    cases n with
    | zero => simp [natDigitsAux]
    | succ m =>
      simp only [natDigitsAux, List.mem_cons]
      rintro d (rfl | hd)
      · omega
      · exact ih _ d hd

/-- The little-endian digit list evaluates back to its number. -/
theorem natDigitsAux_val (fuel n : Nat) (h : n ≤ fuel) :
    (natDigitsAux fuel n).foldr (fun d a => a * 10 + d) 0 = n := by
  induction fuel generalizing n with
  | zero =>
    have : n = 0 := by omega
    simp [this, natDigitsAux]
  | succ f ih =>
    cases n with
    | zero => simp [natDigitsAux]
    | succ m =>
      have hdiv : (m + 1) / 10 ≤ f := by omega
      simp only [natDigitsAux, List.foldr_cons, ih _ hdiv]
      omega

/-- Decimal rendering produces ASCII digit bytes only. -/
theorem decBytes_digits (n : Nat) : ∀ b ∈ decBytes n, 48 ≤ b ∧ b ≤ 57 := by
  intro b hb
  simp only [decBytes] at hb
  split_ifs at hb
  · simp at hb
    omega
  · simp only [List.mem_map, List.mem_reverse] at hb
    obtain ⟨d, hd, rfl⟩ := hb
    have := natDigitsAux_lt n n d hd
    omega

/-- Decimal rendering is never empty. -/
theorem decBytes_ne_nil (n : Nat) : decBytes n ≠ [] := by
  simp only [decBytes]
  split_ifs with h
  · simp
  · cases n with
    | zero => omega
    | succ m => simp [natDigits, natDigitsAux]

/-- Parsing a decimal rendering recovers the number. -/
theorem parse_decBytes (n : Nat) : parsePlusDigits (decBytes n) = some n := by
  obtain ⟨hd, tl, hcons⟩ := List.exists_cons_of_ne_nil (decBytes_ne_nil n)
  have hhd : 48 ≤ hd ∧ hd ≤ 57 := decBytes_digits n hd (by rw [hcons]; simp)
  have hne43 : hd ≠ 43 := by omega
  have hall : (decBytes n).all (fun b => 48 ≤ b && b ≤ 57) = true := by
    rw [List.all_eq_true]
    intro b hb
    have := decBytes_digits n b hb
    simp only [Bool.and_eq_true, decide_eq_true_eq]
    omega
  have hmatch : (match decBytes n with
      | b :: rest => if b = 43 then rest else decBytes n
      | [] => decBytes n) = decBytes n := by
    rw [hcons]
    simp [if_neg hne43]
  simp only [parsePlusDigits, hmatch]
  rw [if_neg (by rw [hcons]; simp), if_pos hall]
  congr 1
  by_cases hz : n = 0
  · subst hz
    simp only [decBytes, if_pos rfl]
    decide
  · simp only [decBytes, if_neg hz, natDigits]
    rw [List.foldl_map, List.foldl_reverse]
    have : ∀ (l : List Nat), (∀ d ∈ l, d < 10) →
        l.foldr (fun y x => x * 10 + (y + 48 - 48)) 0 =
          l.foldr (fun d a => a * 10 + d) 0 := by
      intro l hl
      induction l with
      | nil => rfl
      | cons d t iht =>
        simp only [List.foldr_cons, iht (fun d hd => hl d (by simp [hd]))]
        omega
    rw [this _ (natDigitsAux_lt n n)]
    exact natDigitsAux_val n n (le_refl n)


/-- Bounded parsing of a decimal rendering recovers an in-range number. -/
theorem parseBounded_decBytes (bound n : Nat) (h : n ≤ bound) :
    parseBounded bound (decBytes n) = some n := by
  simp [parseBounded, parse_decBytes, h]

/-- The (name, numeric value) entries of the present option fields, in the
serialisation order of `Options::as_bytes`. -/
def optEntries (o : Options) : List (List Nat × Nat) :=
  (match o.blksize with | some b => [(blksizeB, b)] | none => []) ++
  (match o.timeout with | some t => [(timeoutB, t)] | none => []) ++
  (match o.tsize with | some t => [(tsizeB, t)] | none => []) ++
  (match o.windowsize with | some w => [(windowsizeB, w)] | none => [])

/-- Wire rendering of a list of option entries. -/
def entriesBytes : List (List Nat × Nat) → List Nat
  | [] => []
  | (k, v) :: rest => k ++ 0 :: (decBytes v ++ 0 :: entriesBytes rest)

/-- `Options::as_bytes` is the rendering of the present-field entries. -/
theorem as_bytes_eq_entries (o : Options) : o.as_bytes = entriesBytes (optEntries o) := by
  obtain ⟨ob, ot, ots, ow⟩ := o
  cases ob <;> cases ot <;> cases ots <;> cases ow <;>
    simp [Options.as_bytes, optEntries, entriesBytes]

/-- NUL-splitting rendered entries yields alternating keys and values, with a
trailing empty piece from the final NUL. -/
theorem splitNul_entriesBytes (es : List (List Nat × Nat))
    (hk : ∀ kv ∈ es, (0 : Nat) ∉ kv.1) :
    splitNul (entriesBytes es) =
      es.foldr (fun kv acc => kv.1 :: decBytes kv.2 :: acc) [[]] := by
  induction es with
  | nil => simp [entriesBytes, splitNul]
  | cons kv rest ih =>
    obtain ⟨k, v⟩ := kv
    have hk0 : (0 : Nat) ∉ k := hk (k, v) (by simp)
    have hd0 : (0 : Nat) ∉ decBytes v := fun h => by
      have := decBytes_digits v 0 h
      omega
    simp only [entriesBytes, List.foldr_cons]
    rw [splitNul_append_sep _ _ hk0, splitNul_append_sep _ _ hd0,
      ih (fun kv h => hk kv (by simp [h]))]

/-- The parse loop over such an alternating piece list folds the pair-step
over the entries (the trailing empty piece ends the loop harmlessly). -/
theorem optionsFromLoop_entries_shape (es : List (List Nat × Nat)) (o : Options) :
    optionsFromLoop (es.foldr (fun kv acc => kv.1 :: decBytes kv.2 :: acc) [[]]) o =
      es.foldl (fun a kv => applyPair a kv.1 (decBytes kv.2)) o := by
  induction es generalizing o with
  | nil => simp [optionsFromLoop]
  | cons kv rest ih =>
    simp only [List.foldr_cons, List.foldl_cons, optionsFromLoop]
    exact ih _

/-- A value that does not even parse as a numeral leaves the record unchanged
whatever the key. -/
theorem applyPair_value_unparsable (o : Options) (k v : List Nat)
    (hv : parsePlusDigits v = none) : applyPair o k v = o := by
  simp [applyPair, parseBounded, hv]

theorem applyPair_blksize_entry (a : Options) (b : Nat) (h1 : 8 ≤ b) (h2 : b ≤ 65464) :
    applyPair a blksizeB (decBytes b) = { a with blksize := some b } := by
  have e1 : keyLower blksizeB = blksizeB := by decide
  have f2 : blksizeB ≠ timeoutB := by decide
  have f3 : blksizeB ≠ tsizeB := by decide
  have f4 : blksizeB ≠ windowsizeB := by decide
  simp [applyPair, e1, f2, f3, f4, parseBounded_decBytes 65535 b (by omega), h1, h2]

theorem applyPair_timeout_entry (a : Options) (t : Nat) (h1 : 1 ≤ t) (h2 : t ≤ 255) :
    applyPair a timeoutB (decBytes t) = { a with timeout := some t } := by
  have e2 : keyLower timeoutB = timeoutB := by decide
  have f1 : timeoutB ≠ blksizeB := by decide
  have f3 : timeoutB ≠ tsizeB := by decide
  have f4 : timeoutB ≠ windowsizeB := by decide
  simp [applyPair, e2, f1, f3, f4, parseBounded_decBytes 255 t h2, h1]

theorem applyPair_tsize_entry (a : Options) (t : Nat) (h : t ≤ 2 ^ 64 - 1) :
    applyPair a tsizeB (decBytes t) = { a with tsize := some t } := by
  have e3 : keyLower tsizeB = tsizeB := by decide
  have f1 : tsizeB ≠ blksizeB := by decide
  have f2 : tsizeB ≠ timeoutB := by decide
  have f4 : tsizeB ≠ windowsizeB := by decide
  simp [applyPair, e3, f1, f2, f4, parseBounded_decBytes 18446744073709551615 t (by omega)]

theorem applyPair_windowsize_entry (a : Options) (w : Nat) (h1 : 1 ≤ w) (h2 : w ≤ 65535) :
    applyPair a windowsizeB (decBytes w) = { a with windowsize := some w } := by
  have e4 : keyLower windowsizeB = windowsizeB := by decide
  have f1 : windowsizeB ≠ blksizeB := by decide
  have f2 : windowsizeB ≠ timeoutB := by decide
  have f3 : windowsizeB ≠ tsizeB := by decide
  simp [applyPair, e4, f1, f2, f3, parseBounded_decBytes 65535 w h2, h1]

theorem optionsFrom_entries (o : Options)
    (hblk : ∀ b, o.blksize = some b → 8 ≤ b ∧ b ≤ 65464)
    (htim : ∀ t, o.timeout = some t → 1 ≤ t ∧ t ≤ 255)
    (hts : ∀ t, o.tsize = some t → t ≤ 2 ^ 64 - 1)
    (hwin : ∀ w, o.windowsize = some w → 1 ≤ w ∧ w ≤ 65535) :
    (optEntries o).foldl (fun a kv => applyPair a kv.1 (decBytes kv.2)) {} = o := by
  obtain ⟨ob, ot, ots, ow⟩ := o
  rcases ob with _ | b <;> rcases ot with _ | t <;> rcases ots with _ | ts <;>
    rcases ow with _ | w
  all_goals
    simp only [optEntries, List.nil_append, List.append_nil, List.cons_append,
      List.append_assoc, List.foldl_cons, List.foldl_nil]
  all_goals try rw [applyPair_blksize_entry _ _ (hblk _ rfl).1 (hblk _ rfl).2]
  all_goals try rw [applyPair_timeout_entry _ _ (htim _ rfl).1 (htim _ rfl).2]
  all_goals try rw [applyPair_tsize_entry _ _ (hts _ rfl)]
  all_goals try rw [applyPair_windowsize_entry _ _ (hwin _ rfl).1 (hwin _ rfl).2]

/-- Option names contain no NUL byte. -/
theorem optEntries_key_nonul (o : Options) : ∀ kv ∈ optEntries o, (0 : Nat) ∉ kv.1 := by
  intro kv hkv
  simp only [optEntries, List.mem_append] at hkv
  rcases hkv with ((h | h) | h) | h
  · rcases hx : o.blksize with _ | b
    · rw [hx] at h
      simp at h
    · rw [hx] at h
      simp at h
      rw [h]
      show (0 : Nat) ∉ blksizeB
      decide
  · rcases hx : o.timeout with _ | t
    · rw [hx] at h
      simp at h
    · rw [hx] at h
      simp at h
      rw [h]
      show (0 : Nat) ∉ timeoutB
      decide
  · rcases hx : o.tsize with _ | t
    · rw [hx] at h
      simp at h
    · rw [hx] at h
      simp at h
      rw [h]
      show (0 : Nat) ∉ tsizeB
      decide
  · rcases hx : o.windowsize with _ | w
    · rw [hx] at h
      simp at h
    · rw [hx] at h
      simp at h
      rw [h]
      show (0 : Nat) ∉ windowsizeB
      decide

/-- Pure-ASCII byte strings are valid UTF-8. -/
theorem validUtf8_of_ascii (s : List Nat) (h : ∀ b ∈ s, b ≤ 127) :
    validUtf8 s = true := by
  suffices haux : ∀ s, (∀ b ∈ s, b ≤ 127) → validUtf8Aux s.length s = true from haux s h
  intro s
  induction s with
  | nil => intro _; rfl
  | cons b t ih =>
    intro h
    have hb : b ≤ 127 := h b (by simp)
    rw [List.length_cons, validUtf8Aux.eq_def]
    simp only [if_pos (show b ≤ 0x7F by omega)]
    exact ih (fun c hc => h c (by simp [hc]))

/-- A string that lower-cases to a letter-headed word is not a numeral. -/
theorem mode_unparsable (m : List Nat) (c : Nat) (cs : List Nat)
    (hm : lowerBytes m = c :: cs) (hc1 : 97 ≤ c) (hc2 : c ≤ 122) :
    parsePlusDigits m = none := by
  cases m with
  | nil => simp [lowerBytes] at hm
  | cons b t =>
    simp only [lowerBytes, List.map_cons, List.cons.injEq] at hm
    have hb : 65 ≤ b := by
      have := hm.1
      simp only [asciiLower] at this
      split_ifs at this <;> omega
    have hb57 : ¬ (48 ≤ b ∧ b ≤ 57) := by
      have := hm.1
      simp only [asciiLower] at this
      split_ifs at this <;> omega
    have hnotall : ¬ (((b :: t).all fun x => decide (48 ≤ x) && decide (x ≤ 57)) = true) := by
      simp only [List.all_cons, Bool.and_eq_true, decide_eq_true_eq]
      intro hcontra
      exact hb57 ⟨hcontra.1.1, hcontra.1.2⟩
    simp only [parsePlusDigits, if_neg (show ¬ b = 43 by omega)]
    rw [if_neg (by simp), if_neg hnotall]

/-- A string whose lower-casing is ASCII is itself ASCII. -/
theorem lowerBytes_mode_ascii (m X : List Nat) (hm : lowerBytes m = X)
    (hX : ∀ c ∈ X, c ≤ 122) : ∀ b ∈ m, b ≤ 127 := by
  intro b hb
  have hmem : asciiLower b ∈ X := by
    rw [← hm]
    simp only [lowerBytes, List.mem_map]
    exact ⟨b, hb, rfl⟩
  have := hX _ hmem
  simp only [asciiLower] at this
  split_ifs at this <;> omega

/-- Lower-casing preserves NUL-freedom backwards. -/
theorem lowerBytes_mode_nonul (m X : List Nat) (hm : lowerBytes m = X)
    (hX : (0 : Nat) ∉ X) : (0 : Nat) ∉ m := by
  intro h0
  apply hX
  rw [← hm]
  simp only [lowerBytes, List.mem_map]
  exact ⟨0, h0, by simp [asciiLower]⟩

/-- C4: for every request whose opcode is RRQ or WRQ, whose filename is a
non-empty NUL-free UTF-8 string, whose mode is any-case netascii/octet/mail,
and whose option fields are in their valid ranges (blksize 8-65464, timeout
1-255, tsize any u64, windowsize 1-65535), parsing the serialised request
yields the request back: opcode, filename, mode and every option field are
preserved.  (Faithfully to the source, the options parser also sees the
filename/mode pair; it is harmless because the mode never parses as a
numeral.) -/
theorem parse_request_roundtrip (R : Request)
    (hop : R.op_code = .Rrq ∨ R.op_code = .Wrq)
    (hfne : R.filename ≠ [])
    (hfnul : (0 : Nat) ∉ R.filename)
    (hfutf : validUtf8 R.filename = true)
    (hmode : lowerBytes R.mode = netasciiB ∨ lowerBytes R.mode = octetB ∨
      lowerBytes R.mode = mailB)
    (hblk : ∀ b, R.options.blksize = some b → 8 ≤ b ∧ b ≤ 65464)
    (htim : ∀ t, R.options.timeout = some t → 1 ≤ t ∧ t ≤ 255)
    (hts : ∀ t, R.options.tsize = some t → t ≤ 2 ^ 64 - 1)
    (hwin : ∀ w, R.options.windowsize = some w → 1 ≤ w ∧ w ≤ 65535) :
    parse_request (request R) = .ok R := by
  obtain ⟨op, f, m, o⟩ := R
  simp only at hop hfne hfnul hfutf hmode hblk htim hts hwin
  have hm0 : (0 : Nat) ∉ m := by
    rcases hmode with h | h | h
    · exact lowerBytes_mode_nonul m _ h (by decide)
    · exact lowerBytes_mode_nonul m _ h (by decide)
    · exact lowerBytes_mode_nonul m _ h (by decide)
  have hmascii : ∀ b ∈ m, b ≤ 127 := by
    rcases hmode with h | h | h
    · exact lowerBytes_mode_ascii m _ h (by decide)
    · exact lowerBytes_mode_ascii m _ h (by decide)
    · exact lowerBytes_mode_ascii m _ h (by decide)
  have hmutf : validUtf8 m = true := validUtf8_of_ascii m hmascii
  have hmnum : parsePlusDigits m = none := by
    rcases hmode with h | h | h
    · exact mode_unparsable m 110 _ h (by decide) (by decide)
    · exact mode_unparsable m 111 _ h (by decide) (by decide)
    · exact mode_unparsable m 109 _ h (by decide) (by decide)
  have hm4 : 4 ≤ m.length := by
    have hlm : m.length = (lowerBytes m).length := by simp [lowerBytes]
    rcases hmode with h | h | h <;> rw [h] at hlm <;> simp [netasciiB, octetB, mailB] at hlm <;>
      omega
  have hf1 : 1 ≤ f.length := by
    cases f with
    | nil => exact absurd rfl hfne
    | cons x t => simp
  have hopts : optionsFrom (f ++ 0 :: (m ++ 0 :: o.as_bytes)) = o := by
    simp only [optionsFrom]
    rw [splitNul_append_sep f _ hfnul, splitNul_append_sep m _ hm0]
    have hstep : optionsFromLoop (f :: m :: splitNul o.as_bytes) {} =
        optionsFromLoop (splitNul o.as_bytes) (applyPair {} f m) := rfl
    rw [hstep, applyPair_value_unparsable _ _ _ hmnum, as_bytes_eq_entries,
      splitNul_entriesBytes _ (optEntries_key_nonul o),
      optionsFromLoop_entries_shape]
    exact optionsFrom_entries o hblk htim hts hwin
  rcases hop with rfl | rfl
  · have hreq : request ⟨.Rrq, f, m, o⟩ = 0 :: 1 :: (f ++ 0 :: (m ++ 0 :: o.as_bytes)) := by
      simp [request, u16be, OpCode.toNat]
    rw [hreq]
    simp only [parse_request, parse_opcode]
    rw [if_neg (by simp only [List.length_cons, List.length_append]; omega)]
    simp only [Nat.reduceMul, Nat.reduceAdd, Nat.reduceEqDiff, reduceIte]
    rw [splitNul_append_sep f _ hfnul, splitNul_append_sep m _ hm0]
    simp only [hfutf, hmutf, not_true, Bool.not_eq_true, reduceIte]
    rw [if_pos hmode]
    rw [hopts]
  · have hreq : request ⟨.Wrq, f, m, o⟩ = 0 :: 2 :: (f ++ 0 :: (m ++ 0 :: o.as_bytes)) := by
      simp [request, u16be, OpCode.toNat]
    rw [hreq]
    simp only [parse_request, parse_opcode]
    rw [if_neg (by simp only [List.length_cons, List.length_append]; omega)]
    simp only [Nat.reduceMul, Nat.reduceAdd, Nat.reduceEqDiff, reduceIte]
    rw [splitNul_append_sep f _ hfnul, splitNul_append_sep m _ hm0]
    simp only [hfutf, hmutf, not_true, Bool.not_eq_true, reduceIte]
    rw [if_pos hmode]
    rw [hopts]

/-- C4 witness: an RRQ for file "a" in octet mode with all four options. -/
theorem parse_request_roundtrip_witness :
    parse_request (request ⟨.Rrq, [97], octetB,
      { blksize := some 1024, timeout := some 3, tsize := some 0,
        windowsize := some 4 }⟩) =
      .ok ⟨.Rrq, [97], octetB,
      { blksize := some 1024, timeout := some 3, tsize := some 0,
        windowsize := some 4 }⟩ :=
  parse_request_roundtrip _ (Or.inl rfl) (by decide) (by decide) (by decide)
    (Or.inr (Or.inl (by decide)))
    (fun b hb => by simp only [Option.some.injEq] at hb; omega)
    (fun t ht => by simp only [Option.some.injEq] at ht; omega)
    (fun t ht => by simp only [Option.some.injEq] at ht; omega)
    (fun w hw => by simp only [Option.some.injEq] at hw; omega)

end Tftp
